import Mathlib

/-!
Verification development for the codesearch repository (cindex / csearch
command-line drivers and the memory-mapping helper of the index package).

Each Go function relevant to a claim is shallowly embedded below as a Lean
definition; side effects (filesystem operations, process exit, the sequence
of calls into the index writer and the grep driver) are made explicit as
data.  Machine integers are modelled as `Int` with explicit wrapping where
the Go code converts between integer widths.
-/

namespace Codesearch

/-! ## Machine-integer wrapping

`toIntW w x` is the value of the Go conversion of `x` to a signed `w`-bit
integer (two's complement wrap-around). -/

def toIntW (w : Nat) (x : Int) : Int :=
  (x + 2 ^ (w - 1)) % 2 ^ w - 2 ^ (w - 1)

theorem toIntW_eq_self (w : Nat) (x : Int) (hw : 0 < w)
    (h1 : -(2 ^ (w - 1)) ≤ x) (h2 : x < 2 ^ (w - 1)) : toIntW w x = x := by
  obtain ⟨v, rfl⟩ : ∃ v, w = v + 1 := ⟨w - 1, (Nat.succ_pred_eq_of_pos hw).symm⟩
  simp only [Nat.add_sub_cancel] at h1 h2
  unfold toIntW
  simp only [Nat.add_sub_cancel]
  have hsplit : (2 : Int) ^ (v + 1) = 2 ^ v * 2 := pow_succ 2 v
  have hmod : (x + 2 ^ v) % 2 ^ (v + 1) = x + 2 ^ v :=
    Int.emod_eq_of_lt (by omega) (by omega)
  omega

theorem toIntW_lt (w : Nat) (x : Int) (hw : 0 < w) :
    toIntW w x < 2 ^ (w - 1) ∧ -(2 ^ (w - 1)) ≤ toIntW w x := by
  obtain ⟨v, rfl⟩ : ∃ v, w = v + 1 := ⟨w - 1, (Nat.succ_pred_eq_of_pos hw).symm⟩
  unfold toIntW
  simp only [Nat.add_sub_cancel]
  have hsplit : (2 : Int) ^ (v + 1) = 2 ^ v * 2 := pow_succ 2 v
  have hpos : (0 : Int) < 2 ^ (v + 1) := by positivity
  have hlow : 0 ≤ (x + 2 ^ v) % 2 ^ (v + 1) := Int.emod_nonneg _ (by omega)
  have hhigh : (x + 2 ^ v) % 2 ^ (v + 1) < 2 ^ (v + 1) := Int.emod_lt_of_pos _ hpos
  omega

/-! ## mmapFile

`mmapData` records the observable outcome of a returning `mmapFile` call:
whether a mapping system call was performed and the length of the returned
data slice.  `mmapResult` adds the two non-returning outcomes: the
`log.Fatalf("too large for mmap")` abort when the Go check
`int64(int(size+4095)) != size+4095` fails (`size` is the `int64` result
of `Stat`), and — on the Windows variant only — the runtime panic of
`data[:size]` when `size` exceeds the `1 << 30` bound of the array cast
`(*[1 << 30]byte)(unsafe.Pointer(addr))` at line 35.  `mmapFile` embeds
the Windows variant (src/index/mmap_windows.go lines 14-37),
`mmapFileUnix` the Unix variant, whose `syscall.Mmap` slice has the
page-rounded length so its `data[:n]` is always in bounds; `w` is the bit
width of the platform `int` type. -/

structure mmapData where
  mapped : Bool
  dataLen : Int
deriving DecidableEq

inductive mmapResult where
  | ok : mmapData → mmapResult
  | fatalTooLarge : mmapResult
  | panicSlice : mmapResult
deriving DecidableEq

def mmapFile (w : Nat) (size : Int) : mmapResult :=
  let s := toIntW 64 (size + 4095)
  if toIntW w s ≠ s then .fatalTooLarge
  else if size = 0 then .ok ⟨false, 0⟩
  else if 2 ^ 30 < size then .panicSlice
  else .ok ⟨true, size⟩

def mmapFileUnix (w : Nat) (size : Int) : mmapResult :=
  let s := toIntW 64 (size + 4095)
  if toIntW w s ≠ s then .fatalTooLarge
  else
    let n := toIntW w size
    if n = 0 then .ok ⟨false, 0⟩
    else .ok ⟨true, n⟩

/-- Claim C10 as stated is false on the Windows variant at the concrete
size `2 ^ 30 + 1`: the file is accepted by the too-large check
(`int64(int(size+4095))` equals `size+4095` on a 64-bit platform), yet the
function panics at the slice operation `data[:size]` against the
`1 << 30` array bound instead of returning a data slice of the file's
length. -/
theorem mmapFile_full_length_counterexample :
    mmapFile 64 (2 ^ 30 + 1) ≠ mmapResult.fatalTooLarge
    ∧ mmapFile 64 (2 ^ 30 + 1) = mmapResult.panicSlice := by
  decide

/-- Claim C10 (amended): for every file for which it returns, `mmapFile`
returns a data slice of length exactly the file size reported by `Stat`;
a zero-length file yields a nil (empty) slice with no mapping system call
performed; and a file whose size plus page rounding does not fit in the
platform `int` is rejected (fatal) rather than partially mapped.  On the
Windows variant, however, an accepted file whose size exceeds the
`1 << 30` array bound panics at the slice operation instead of returning
— the panic happens exactly for accepted sizes above `2 ^ 30` — while the
Unix variant never panics and returns for every accepted size. -/
theorem mmapFile_len_and_reject (w : Nat) (size : Int) (hw : 0 < w)
    (h0 : 0 ≤ size) (hbig : size + 4095 < 2 ^ 63) :
    (∀ r, mmapFile w size = mmapResult.ok r →
        r.dataLen = size ∧ (size = 0 → r.mapped = false))
    ∧ (2 ^ (w - 1) ≤ size + 4095 → mmapFile w size = mmapResult.fatalTooLarge)
    ∧ (mmapFile w size = mmapResult.panicSlice ↔
        size + 4095 < 2 ^ (w - 1) ∧ 2 ^ 30 < size)
    ∧ (∀ r, mmapFileUnix w size = mmapResult.ok r →
        r.dataLen = size ∧ (size = 0 → r.mapped = false))
    ∧ (2 ^ (w - 1) ≤ size + 4095 → mmapFileUnix w size = mmapResult.fatalTooLarge)
    ∧ mmapFileUnix w size ≠ mmapResult.panicSlice := by
  have hs : toIntW 64 (size + 4095) = size + 4095 :=
    toIntW_eq_self 64 _ (by norm_num) (by norm_num; omega) (by norm_num; omega)
  by_cases hfit : toIntW w (size + 4095) = size + 4095
  · have hlt : size + 4095 < 2 ^ (w - 1) := by
      have := toIntW_lt w (size + 4095) hw
      omega
    have hszlt : size < 2 ^ (w - 1) := by omega
    have hn : toIntW w size = size := by
      have hp : (0 : Int) < 2 ^ (w - 1) := by positivity
      exact toIntW_eq_self w size hw (by omega) hszlt
    have hM : mmapFile w size = if size = 0 then mmapResult.ok ⟨false, 0⟩
        else if 2 ^ 30 < size then mmapResult.panicSlice
        else mmapResult.ok ⟨true, size⟩ := by
      simp [mmapFile, hs, hfit]
    have hU : mmapFileUnix w size = if size = 0 then mmapResult.ok ⟨false, 0⟩
        else mmapResult.ok ⟨true, size⟩ := by
      by_cases hz : size = 0
      · have hs0 : toIntW 64 (4095 : Int) = 4095 := by rw [hz] at hs; simpa using hs
        have hfit0 : toIntW w (4095 : Int) = 4095 := by rw [hz] at hfit; simpa using hfit
        have hn0 : toIntW w (0 : Int) = 0 := by rw [hz] at hn; simpa using hn
        simp [mmapFileUnix, hz, hs0, hfit0, hn0]
      · simp [mmapFileUnix, hs, hfit, hn, hz]
    refine ⟨?_, ?_, ?_, ?_, ?_, ?_⟩
    · intro r hr
      rw [hM] at hr
      by_cases hz : size = 0
      · rw [if_pos hz] at hr
        cases hr
        exact ⟨hz.symm, fun _ => rfl⟩
      · rw [if_neg hz] at hr
        by_cases hb : 2 ^ 30 < size
        · rw [if_pos hb] at hr
          exact mmapResult.noConfusion hr
        · rw [if_neg hb] at hr
          cases hr
          exact ⟨rfl, fun hzz => absurd hzz hz⟩
    · intro hge; omega
    · rw [hM]
      by_cases hz : size = 0
      · rw [if_pos hz]
        constructor
        · intro h
          exact mmapResult.noConfusion h
        · rintro ⟨-, h⟩
          rw [hz] at h
          exact absurd h (by norm_num)
      · rw [if_neg hz]
        by_cases hb : 2 ^ 30 < size
        · rw [if_pos hb]
          exact iff_of_true rfl ⟨hlt, hb⟩
        · rw [if_neg hb]
          constructor
          · intro h
            exact mmapResult.noConfusion h
          · rintro ⟨-, h⟩
            exact absurd h hb
    · intro r hr
      rw [hU] at hr
      by_cases hz : size = 0
      · rw [if_pos hz] at hr
        cases hr
        exact ⟨hz.symm, fun _ => rfl⟩
      · rw [if_neg hz] at hr
        cases hr
        exact ⟨rfl, fun hzz => absurd hzz hz⟩
    · intro hge; omega
    · rw [hU]
      by_cases hz : size = 0
      · rw [if_pos hz]
        exact fun h => mmapResult.noConfusion h
      · rw [if_neg hz]
        exact fun h => mmapResult.noConfusion h
  · have hnotlt : ¬ (size + 4095 < 2 ^ (w - 1)) := by
      intro hlt
      apply hfit
      have hp : (0 : Int) < 2 ^ (w - 1) := by positivity
      exact toIntW_eq_self w _ hw (by omega) hlt
    have hMf : mmapFile w size = mmapResult.fatalTooLarge := by
      simp [mmapFile, hs, hfit]
    have hUf : mmapFileUnix w size = mmapResult.fatalTooLarge := by
      simp [mmapFileUnix, hs, hfit]
    refine ⟨?_, ?_, ?_, ?_, ?_, ?_⟩
    · intro r hr
      rw [hMf] at hr
      exact mmapResult.noConfusion hr
    · intro _
      exact hMf
    · rw [hMf]
      constructor
      · intro h
        exact mmapResult.noConfusion h
      · rintro ⟨hlt, -⟩
        exact absurd hlt hnotlt
    · intro r hr
      rw [hUf] at hr
      exact mmapResult.noConfusion hr
    · intro _
      exact hUf
    · rw [hUf]
      intro h
      exact mmapResult.noConfusion h

/-- Witness for C10 at `w = 32`, `size = 5`. -/
theorem mmapFile_len_and_reject_witness :
    (0 < 32 ∧ (0 : Int) ≤ 5 ∧ (5 : Int) + 4095 < 2 ^ 63) ∧
    ((⟨true, 5⟩ : mmapData).dataLen = 5 ∧ ((5 : Int) = 0 → (⟨true, 5⟩ : mmapData).mapped = false)) := by
  refine ⟨by decide, ?_⟩
  exact (mmapFile_len_and_reject 32 5 (by decide) (by decide) (by decide)).1 ⟨true, 5⟩ (by decide)

/-! ## csearch: pattern construction

Embeds lines 158-161 of the csearch driver: `pat := "(?m)" + args[0]`,
then `if *iFlag { pat = "(?i)" + pat }`. -/

def csearchPattern (iFlag : Bool) (arg : String) : String :=
  let pat := "(?m)" ++ arg
  if iFlag then "(?i)" ++ pat else pat

/-- Claim C9: case-insensitive search is achieved purely by a pattern
transform: the compiled pattern is `(?i)(?m)` followed by the user's
pattern when `-i` is set, and `(?m)` followed by the user's pattern
otherwise; the user's pattern text itself appears verbatim as the suffix
in both cases. -/
theorem csearchPattern_correct (arg : String) :
    csearchPattern true arg = "(?i)(?m)" ++ arg
    ∧ csearchPattern false arg = "(?m)" ++ arg := by
  constructor
  · show "(?i)" ++ ("(?m)" ++ arg) = "(?i)(?m)" ++ arg
    rw [← String.append_assoc]
    congr 1
  · rfl

/-! ## csearch: query evaluation and the brute flag

The index reader and posting evaluator live in the index package, which is
not under src (only the csearch driver is).  `Index` and `postingQuery`
are therefore modelled from the spec. -/

structure Index where
  numNames : Nat
  posting : Nat → List Nat

inductive Query where
  | qall : Query
  | qnone : Query
  | qtri : List Nat → Query
  | qand : List Query → Query
  | qor : List Query → Query

def listInter (a b : List Nat) : List Nat :=
  a.filter (fun x => decide (x ∈ b))

def listUnion (a b : List Nat) : List Nat :=
  a ++ b.filter (fun x => decide (x ∉ a))

/-- Modelled from the spec: per-trigram-leaf evaluation, spec section 4.6,
the k-way intersection of the posting lists of a required trigram set. -/
def postingsInter (ix : Index) : List Nat → List Nat
  | [] => List.range ix.numNames
  | [t] => ix.posting t
  | t :: rest => listInter (ix.posting t) (postingsInter ix rest)

mutual

/-- Modelled from the spec: `PostingQuery` of the index package is not
under src.  Spec section 4.6: `ALL` evaluates to `{0 .. num_names-1}`,
`NONE` to the empty set, a trigram leaf to the intersection of its
postings, `AND` to the intersection of the children, `OR` to the union. -/
def postingQuery (ix : Index) : Query → List Nat
  | .qall => List.range ix.numNames
  | .qnone => []
  | .qtri ts => postingsInter ix ts
  | .qand cs => postingAnd ix cs
  | .qor cs => postingOr ix cs

/-- Modelled from the spec: intersection over `AND` children. -/
def postingAnd (ix : Index) : List Query → List Nat
  | [] => List.range ix.numNames
  | c :: cs => listInter (postingQuery ix c) (postingAnd ix cs)

/-- Modelled from the spec: union over `OR` children. -/
def postingOr (ix : Index) : List Query → List Nat
  | [] => []
  | c :: cs => listUnion (postingQuery ix c) (postingOr ix cs)

end

/-- Embeds lines 181-186 of the csearch driver: `if *bruteFlag { post =
ix.PostingQuery(&index.Query{Op: index.QAll}) } else { post =
ix.PostingQuery(q) }`. -/
def csearchCandidates (brute : Bool) (ix : Index) (q : Query) : List Nat :=
  if brute then postingQuery ix Query.qall else postingQuery ix q

/-- Claim C4: with `-brute` the searcher evaluates the query `QAll`
instead of the planner's query, so the candidate set is every indexed
file (every fileid below `numNames`); without `-brute` the planner's
query is evaluated. -/
theorem csearchCandidates_brute (ix : Index) (q : Query) :
    (∀ fid, fid ∈ csearchCandidates true ix q ↔ fid < ix.numNames)
    ∧ csearchCandidates false ix q = postingQuery ix q := by
  constructor
  · intro fid
    simp [csearchCandidates, postingQuery, List.mem_range]
  · simp [csearchCandidates]

/-! ## csearch: file-name filtering

Embeds lines 191-206 of the csearch driver.  The file-name matcher
`MatchString` returns a negative value for "no match"; the driver skips a
candidate exactly when the value is negative. -/

def filterFnames (fre : Option (String → Int)) (name : Nat → String)
    (post : List Nat) : List Nat :=
  match fre with
  | none => post
  | some m => post.filter (fun fid => !decide (m (name fid) < 0))

/-- Claim C6: when a file-name regexp is supplied, every candidate whose
resolved name does not match (negative `MatchString` result) is removed
and every candidate whose name matches is retained (the result is a
sublist of the candidates); when `-f` is absent the list passes through
unchanged. -/
theorem filterFnames_spec (m : String → Int) (name : Nat → String)
    (post : List Nat) :
    (∀ fid, fid ∈ filterFnames (some m) name post
        ↔ fid ∈ post ∧ 0 ≤ m (name fid))
    ∧ List.Sublist (filterFnames (some m) name post) post
    ∧ filterFnames none name post = post := by
  refine ⟨?_, ?_, rfl⟩
  · intro fid
    simp [filterFnames, List.mem_filter, Int.not_lt]
  · exact List.filter_sublist post

/-! ## csearch: exit status

Embeds lines 137-139 (usage check in `Main`: a positional-argument count
other than one calls `usage`, which exits with status 2) and lines 222-228
(`main`: exit 1 when no match was found, exit 0 otherwise). -/

def csearchExit (args : List String) (grepMatched : Bool) : Nat :=
  if args.length ≠ 1 then 2
  else if grepMatched then 0 else 1

/-- Claim C5: the searcher exits 0 when at least one match was found,
1 when it ran to completion without a match, and 2 when given a number of
positional arguments other than exactly one. -/
theorem csearchExit_spec (args : List String) (grepMatched : Bool) :
    (args.length ≠ 1 → csearchExit args grepMatched = 2)
    ∧ (args.length = 1 → grepMatched = true → csearchExit args grepMatched = 0)
    ∧ (args.length = 1 → grepMatched = false → csearchExit args grepMatched = 1) := by
  refine ⟨?_, ?_, ?_⟩
  · intro h
    simp [csearchExit, h]
  · intro h hm
    simp [csearchExit, h, hm]
  · intro h hm
    simp [csearchExit, h, hm]

/-- Witness for C5: one argument with a match exits 0; two arguments exit 2. -/
theorem csearchExit_spec_witness :
    ((["p"] : List String).length = 1 ∧ (["a", "b"] : List String).length ≠ 1)
    ∧ csearchExit ["p"] true = 0 ∧ csearchExit ["a", "b"] true = 2 :=
  ⟨by decide,
   (csearchExit_spec ["p"] true).2.1 (by decide) rfl,
   (csearchExit_spec ["a", "b"] true).1 (by decide)⟩

/-! ## csearch: the candidate loop and the grep done flag

Embeds lines 208-217 of the csearch driver:

  for _, fileid := range post { name := ix.Name(fileid); g.File(name);
    if g.Done { break } }

`fileF` is the grep driver's `File` method, left abstract (the regexp
package is not part of this repository); `csearchLoop` returns the final
driver state and the list of file names passed to the driver, and
`csearchStates` the driver state after each `File` call actually made. -/

structure Grep where
  done : Bool
  matched : Bool
deriving DecidableEq

def csearchLoop (fileF : Grep → String → Grep) (name : Nat → String) :
    Grep → List Nat → Grep × List String
  | g, [] => (g, [])
  | g, fid :: rest =>
    let g2 := fileF g (name fid)
    if g2.done then (g2, [name fid])
    else
      let r := csearchLoop fileF name g2 rest
      (r.1, name fid :: r.2)

def csearchStates (fileF : Grep → String → Grep) (name : Nat → String) :
    Grep → List Nat → List Grep
  | _, [] => []
  | g, fid :: rest =>
    let g2 := fileF g (name fid)
    if g2.done then [g2]
    else g2 :: csearchStates fileF name g2 rest

/-- Claim C2: the candidate loop passes an initial segment of the
evaluator's fileid list to the grep driver, and every `File` call except
possibly the last leaves the done flag false — equivalently, once the done
flag is set (inspected after each file), the loop terminates and no
further candidate file is passed to the driver. -/
theorem csearchLoop_stops (fileF : Grep → String → Grep) (name : Nat → String)
    (g : Grep) (post : List Nat) :
    (csearchLoop fileF name g post).2
      = (post.take (csearchStates fileF name g post).length).map name
    ∧ ∀ i (h : i + 1 < (csearchStates fileF name g post).length),
        ((csearchStates fileF name g post).get ⟨i, Nat.lt_of_succ_lt h⟩).done = false := by
  induction post generalizing g with
  | nil =>
    refine ⟨rfl, ?_⟩
    intro i h
    simp [csearchStates] at h
  | cons fid rest ih =>
    by_cases hd : (fileF g (name fid)).done
    · constructor
      · simp [csearchLoop, csearchStates, hd]
      · intro i h
        simp [csearchStates, hd] at h
    · have hd2 : (fileF g (name fid)).done = false := by simpa using hd
      constructor
      · simp [csearchLoop, csearchStates, hd, (ih (fileF g (name fid))).1]
      · intro i h
        match i with
        | 0 => simp [csearchStates, hd, hd2]
        | Nat.succ j =>
          have hlen : j + 1 < (csearchStates fileF name (fileF g (name fid)) rest).length := by
            simp [csearchStates, hd] at h
            omega
          have := (ih (fileF g (name fid))).2 j hlen
          simpa [csearchStates, hd] using this

/-- Concrete grep driver used by the C2 witness: it records a match on
every file and sets the done flag on the second call. -/
def demoGrepFile (g : Grep) (_ : String) : Grep :=
  ⟨g.matched, true⟩

/-- Witness for C2: with the concrete driver above and candidates
`[0, 1, 2, 3]`, exactly two `File` calls happen and the state after the
first call has the done flag unset. -/
theorem csearchLoop_stops_witness :
    (0 + 1 < (csearchStates demoGrepFile (fun _ => "f") ⟨false, false⟩ [0, 1, 2, 3]).length)
    ∧ ((csearchStates demoGrepFile (fun _ => "f") ⟨false, false⟩ [0, 1, 2, 3]).get
        ⟨0, by decide⟩).done = false :=
  ⟨by decide,
   (csearchLoop_stops demoGrepFile (fun _ => "f") ⟨false, false⟩ [0, 1, 2, 3]).2 0 (by decide)⟩

/-! ## cindex: the consumer goroutine

Embeds lines 841-854 (and the identical older variant, lines 469-482) of
the cindex driver: the consumer reads paths from the walker channel,
keeps a `seen` set, and calls `ix.AddFile(path)` only for paths not yet
seen.  `consumer seen delivered` is the sequence of `AddFile` calls made
for the sequence of paths delivered over the channel, given the set of
paths already seen. -/

def consumer : List String → List String → List String
  | _, [] => []
  | seen, p :: rest =>
    if p ∈ seen then consumer seen rest
    else p :: consumer (p :: seen) rest

theorem consumer_mem (rest : List String) : ∀ (seen : List String) (q : String),
    q ∈ consumer seen rest ↔ q ∈ rest ∧ q ∉ seen := by
  induction rest with
  | nil => intro seen q; simp [consumer]
  | cons p rest ih =>
    intro seen q
    by_cases hp : p ∈ seen
    · simp only [consumer, if_pos hp]
      rw [ih seen q]
      constructor
      · exact fun h => ⟨List.mem_cons_of_mem p h.1, h.2⟩
      · rintro ⟨hq1, hq2⟩
        rcases List.mem_cons.mp hq1 with rfl | hq1
        · exact absurd hp hq2
        · exact ⟨hq1, hq2⟩
    · simp only [consumer, if_neg hp, List.mem_cons]
      rw [ih (p :: seen) q]
      constructor
      · rintro (rfl | ⟨hq1, hq2⟩)
        · exact ⟨Or.inl rfl, hp⟩
        · exact ⟨Or.inr hq1, fun hs => hq2 (List.mem_cons_of_mem p hs)⟩
      · rintro ⟨rfl | hq1, hq2⟩
        · exact Or.inl rfl
        · by_cases hqp : q = p
          · exact Or.inl hqp
          · exact Or.inr ⟨hq1, fun hs => by
              rcases List.mem_cons.mp hs with h | h
              · exact hqp h
              · exact hq2 h⟩

theorem consumer_nodup (rest : List String) : ∀ seen : List String,
    (consumer seen rest).Nodup := by
  induction rest with
  | nil => intro seen; simp [consumer]
  | cons p rest ih =>
    intro seen
    by_cases hp : p ∈ seen
    · simp only [consumer, if_pos hp]
      exact ih seen
    · simp only [consumer, if_neg hp]
      refine List.nodup_cons.mpr ⟨?_, ih (p :: seen)⟩
      intro hmem
      exact ((consumer_mem rest (p :: seen) p).mp hmem).2 (List.mem_cons_self p seen)

/-- Claim C3: for every sequence of paths delivered over the walker
channel, the consumer calls the writer's `AddFile` at most once per
distinct path (the call sequence has no duplicates), and a path reaches
the writer exactly when it was delivered at least once. -/
theorem consumer_dedup (delivered : List String) :
    (consumer [] delivered).Nodup
    ∧ ∀ p, p ∈ consumer [] delivered ↔ p ∈ delivered := by
  refine ⟨consumer_nodup delivered [], ?_⟩
  intro p
  rw [consumer_mem delivered [] p]
  simp

/-! ## Filesystem model for the cindex build tail

`Fs` is an association list from file names to an abstract content
version.  `fsWrite`, `fsRemove` and `fsRename` model creating or
truncating a file, `os.Remove`, and `os.Rename`. -/

abbrev Fs : Type := List (String × Nat)

def lookupFs : Fs → String → Option Nat
  | [], _ => none
  | (k, v) :: rest, n => if k = n then some v else lookupFs rest n

def fsRemove : Fs → String → Fs
  | [], _ => []
  | (k, v) :: rest, n =>
    if k = n then fsRemove rest n else (k, v) :: fsRemove rest n

def fsWrite (fs : Fs) (n : String) (v : Nat) : Fs :=
  (n, v) :: fsRemove fs n

def fsRename (fs : Fs) (src dst : String) : Fs :=
  match lookupFs fs src with
  | some v => fsWrite (fsRemove fs src) dst v
  | none => fs

theorem lookupFs_fsRemove_ne (fs : Fs) (n m : String) (h : n ≠ m) :
    lookupFs (fsRemove fs n) m = lookupFs fs m := by
  induction fs with
  | nil => rfl
  | cons kv rest ih =>
    obtain ⟨k, v⟩ := kv
    simp only [fsRemove]
    by_cases hk : k = n
    · rw [if_pos hk, ih]
      have hkm : ¬ k = m := by rw [hk]; exact h
      simp [lookupFs, hkm]
    · rw [if_neg hk]
      simp only [lookupFs]
      by_cases hkm : k = m
      · simp [hkm]
      · simp only [hkm, if_false]
        exact ih

theorem lookupFs_fsRemove_self (fs : Fs) (n : String) :
    lookupFs (fsRemove fs n) n = none := by
  induction fs with
  | nil => rfl
  | cons kv rest ih =>
    obtain ⟨k, v⟩ := kv
    simp only [fsRemove]
    by_cases hk : k = n
    · rw [if_pos hk]
      exact ih
    · rw [if_neg hk]
      simp only [lookupFs, hk, if_false]
      exact ih

theorem lookupFs_fsWrite_ne (fs : Fs) (n m : String) (v : Nat) (h : n ≠ m) :
    lookupFs (fsWrite fs n v) m = lookupFs fs m := by
  simp only [fsWrite, lookupFs, h, if_false]
  exact lookupFs_fsRemove_ne fs n m h

theorem lookupFs_none_fsRemove (fs : Fs) (n : String)
    (h : lookupFs fs n = none) : fsRemove fs n = fs := by
  induction fs with
  | nil => rfl
  | cons kv rest ih =>
    obtain ⟨k, v⟩ := kv
    simp only [lookupFs] at h
    by_cases hk : k = n
    · simp [hk] at h
    · simp only [hk, if_false] at h
      simp [fsRemove, hk, ih h]

theorem string_ne_append_ne (s t : String) (h : t ≠ "") : s ≠ s ++ t := by
  intro he
  have hlen := congrArg String.length he
  rw [String.length_append] at hlen
  have : t.length = 0 := by omega
  exact h (String.ext (List.length_eq_zero.mp this))

/-! ## cindex: the non-reset merge tail

`mergeTailStates` embeds lines 863-871 of the (newer) cindex driver: after
`ix.Flush()` into the scratch `file = master + "~"`, the driver runs
`index.Merge(file+"~", master, file)`, then `os.Remove(file)`, then
`os.Remove(master)`, then `os.Rename(file+"~", master)` (fatal on error).
The returned list holds the filesystem state before the merge and after
each of the four operations; `renameOk = false` models a rename failure,
in which case the final state equals the state before the rename.
`mergeTailStatesOld` embeds the older variant (lines 491-496), which has
no `os.Remove(master)` step. -/

def mergeTailStates (master : String) (fs0 : Fs) (merged : Nat)
    (renameOk : Bool) : List Fs :=
  let file := master ++ "~"
  let fs1 := fsWrite fs0 (file ++ "~") merged
  let fs2 := fsRemove fs1 file
  let fs3 := fsRemove fs2 master
  let fs4 := if renameOk then fsRename fs3 (file ++ "~") master else fs3
  [fs0, fs1, fs2, fs3, fs4]

def mergeTailStatesOld (master : String) (fs0 : Fs) (merged : Nat)
    (renameOk : Bool) : List Fs :=
  let file := master ++ "~"
  let fs1 := fsWrite fs0 (file ++ "~") merged
  let fs2 := fsRemove fs1 file
  let fs3 := if renameOk then fsRename fs2 (file ++ "~") master else fs2
  [fs0, fs1, fs2, fs3]

/-- Claim C1 as stated is false on the newer cindex variant: with master
index `"m"` present and a rename failure, the intermediate states do not
all retain the prior master — `os.Remove(master)` runs before the rename,
so after the rename failure the prior master file is gone. -/
theorem merge_master_retained_counterexample :
    ¬ (∀ fs ∈ mergeTailStates "m" [("m", 0)] 1 false,
        lookupFs fs "m" = lookupFs [("m", 0)] "m") := by
  decide

/-- Claim C1 (amended): the merged index is written to a second temporary
and renamed into place.  In the newer variant the prior master is retained
unmodified through the merge and the removal of the first scratch (so a
merge failure leaves it intact), but it is explicitly removed just before
the rename: after that point — in particular after a rename failure —
the prior master no longer exists.  In the older variant the prior master
is retained unmodified at every intermediate step, including after a
rename failure. -/
theorem merge_master_lifetime (master : String) (fs0 : Fs) (merged : Nat)
    (renameOk : Bool) :
    (∀ fs ∈ (mergeTailStates master fs0 merged renameOk).take 3,
        lookupFs fs master = lookupFs fs0 master)
    ∧ (∀ fs ∈ (mergeTailStates master fs0 merged false).drop 3,
        lookupFs fs master = none)
    ∧ (∀ fs ∈ mergeTailStatesOld master fs0 merged false,
        lookupFs fs master = lookupFs fs0 master) := by
  have h1 : master ≠ master ++ "~" := string_ne_append_ne master "~" (by decide)
  have h2 : master ≠ master ++ "~" ++ "~" := by
    intro he
    apply string_ne_append_ne master "~~" (by decide)
    rw [String.append_assoc] at he
    exact he
  have key1 : lookupFs (fsWrite fs0 (master ++ "~" ++ "~") merged) master
      = lookupFs fs0 master :=
    lookupFs_fsWrite_ne fs0 _ master merged (fun he => h2 he.symm)
  have key2 : lookupFs (fsRemove (fsWrite fs0 (master ++ "~" ++ "~") merged) (master ++ "~")) master
      = lookupFs fs0 master := by
    rw [lookupFs_fsRemove_ne _ _ _ (fun he => h1 he.symm)]
    exact key1
  refine ⟨?_, ?_, ?_⟩
  · intro fs hfs
    have hfs2 : fs ∈ [fs0, fsWrite fs0 (master ++ "~" ++ "~") merged,
        fsRemove (fsWrite fs0 (master ++ "~" ++ "~") merged) (master ++ "~")] := hfs
    simp only [List.mem_cons, List.not_mem_nil, or_false] at hfs2
    rcases hfs2 with rfl | rfl | rfl
    · rfl
    · exact key1
    · exact key2
  · intro fs hfs
    have hfs2 : fs ∈ [fsRemove (fsRemove (fsWrite fs0 (master ++ "~" ++ "~") merged) (master ++ "~")) master,
        fsRemove (fsRemove (fsWrite fs0 (master ++ "~" ++ "~") merged) (master ++ "~")) master] := hfs
    simp only [List.mem_cons, List.not_mem_nil, or_false] at hfs2
    rcases hfs2 with rfl | rfl
    · exact lookupFs_fsRemove_self _ master
    · exact lookupFs_fsRemove_self _ master
  · intro fs hfs
    have hfs2 : fs ∈ [fs0, fsWrite fs0 (master ++ "~" ++ "~") merged,
        fsRemove (fsWrite fs0 (master ++ "~" ++ "~") merged) (master ++ "~"),
        fsRemove (fsWrite fs0 (master ++ "~" ++ "~") merged) (master ++ "~")] := hfs
    simp only [List.mem_cons, List.not_mem_nil, or_false] at hfs2
    rcases hfs2 with rfl | rfl | rfl | rfl
    · rfl
    · exact key1
    · exact key2
    · exact key2

/-- Witness for the amended C1 at a concrete state: with master `"m"`
present, the state right after the merge wrote the second scratch still
holds the prior master unmodified. -/
theorem merge_master_lifetime_witness :
    (fsWrite [("m", 0)] ("m" ++ "~" ++ "~") 1 ∈
        (mergeTailStates "m" [("m", 0)] 1 true).take 3)
    ∧ lookupFs (fsWrite [("m", 0)] ("m" ++ "~" ++ "~") 1) "m" = lookupFs [("m", 0)] "m" :=
  ⟨by decide,
   (merge_master_lifetime "m" [("m", 0)] 1 true).1
     (fsWrite [("m", 0)] ("m" ++ "~" ++ "~") 1) (by decide)⟩

/-! ## cindex: top-level control flow

`StatResult` abstracts `os.Stat` on the resolved index path: the path does
not exist, names a regular file, or names something else (directory or
irregular file).  `BuildStep` records the externally visible actions of
the cindex driver in order, and `cindexMain` embeds the control flow of
`main` in the newer cindex variant (lines 750-763 for reset-with-no-args,
789-795 for argument population from the open index, 814-871 for the
build and merge): `reset` is `-reset`, `args0` the positional arguments,
`stat` the result of `os.Stat(master)`, and `indexedPaths` the value of
`ix.Paths()` of the existing index.  Path absolutization is the identity
here (paths are abstract strings); the subsequent sort is kept. -/

inductive StatResult where
  | absent : StatResult
  | regularFile : StatResult
  | other : StatResult
deriving DecidableEq

inductive BuildStep where
  | removeFile : String → BuildStep
  | fatal : BuildStep
  | createIndex : String → BuildStep
  | addPaths : List String → BuildStep
  | indexWalk : List String → BuildStep
  | flushIndex : BuildStep
  | mergeIndex : String → String → String → BuildStep
  | renameFile : String → String → BuildStep
deriving DecidableEq

def cindexMain (reset : Bool) (args0 : List String) (stat : StatResult)
    (indexedPaths : List String) (master : String) : List BuildStep :=
  if reset = true ∧ args0 = [] then
    match stat with
    | .absent => []
    | .regularFile => [.removeFile master]
    | .other => [.fatal]
  else
    let args1 := if args0 = [] then indexedPaths else args0
    let args := args1.insertionSort (· ≤ ·)
    match stat with
    | .other => [.fatal]
    | _ =>
      let reset2 := if stat = .absent then true else reset
      let file := if reset2 then master else master ++ "~"
      [.createIndex file, .addPaths args, .indexWalk args, .flushIndex] ++
        (if reset2 then [] else
          [.mergeIndex (master ++ "~" ++ "~") master (master ++ "~"),
           .removeFile (master ++ "~"),
           .removeFile master,
           .renameFile (master ++ "~" ++ "~") master])

/-- Claim C7: invoking the builder with `-reset` and no path arguments
deletes the index file named by the resolved index path and performs no
indexing (no walk step ever appears); when no index file exists the
invocation is a no-op — in particular the older variant's unconditional
`os.Remove` is also a filesystem no-op when the index is absent. -/
theorem cindex_reset_no_args (stat : StatResult) (indexedPaths : List String)
    (master : String) (fs : Fs) :
    (stat = StatResult.absent →
        cindexMain true [] stat indexedPaths master = [])
    ∧ (stat = StatResult.regularFile →
        cindexMain true [] stat indexedPaths master = [BuildStep.removeFile master])
    ∧ (∀ l, BuildStep.indexWalk l ∉ cindexMain true [] stat indexedPaths master)
    ∧ (lookupFs fs master = none → fsRemove fs master = fs) := by
  refine ⟨?_, ?_, ?_, lookupFs_none_fsRemove fs master⟩
  · intro h
    subst h
    simp [cindexMain]
  · intro h
    subst h
    simp [cindexMain]
  · intro l
    cases stat <;> simp [cindexMain]

/-- Witness for C7 with an absent index and an empty filesystem. -/
theorem cindex_reset_no_args_witness :
    (StatResult.absent = StatResult.absent ∧ lookupFs [] "m" = none)
    ∧ (cindexMain true [] StatResult.absent [] "m" = [] ∧ fsRemove [] "m" = []) :=
  ⟨⟨rfl, rfl⟩,
   (cindex_reset_no_args StatResult.absent [] "m" []).1 rfl,
   (cindex_reset_no_args StatResult.absent [] "m" []).2.2.2 rfl⟩

/-- Claim C8: invoking the builder with no path arguments and without
`-reset` indexes exactly the root paths recorded in the existing index:
the walked argument list is populated from the open index's `Paths()`
(then sorted), so it contains the same paths. -/
theorem cindex_no_args_reindexes (stat : StatResult) (indexedPaths : List String)
    (master : String) (h : stat ≠ StatResult.other) :
    ∃ l, BuildStep.indexWalk l ∈ cindexMain false [] stat indexedPaths master
      ∧ ∀ p, p ∈ l ↔ p ∈ indexedPaths := by
  refine ⟨indexedPaths.insertionSort (· ≤ ·), ?_, ?_⟩
  · cases stat with
    | other => exact absurd rfl h
    | absent => simp [cindexMain]
    | regularFile => simp [cindexMain]
  · intro p
    exact (List.perm_insertionSort (· ≤ ·) indexedPaths).mem_iff

/-- Witness for C8 with an existing regular index file recording the
single root `"a"`. -/
theorem cindex_no_args_reindexes_witness :
    (StatResult.regularFile ≠ StatResult.other)
    ∧ (∃ l, BuildStep.indexWalk l ∈ cindexMain false [] StatResult.regularFile ["a"] "m"
        ∧ ∀ p, p ∈ l ↔ p ∈ ["a"]) :=
  ⟨by decide,
   cindex_no_args_reindexes StatResult.regularFile ["a"] "m" (by decide)⟩

end Codesearch
